import Mathlib

/-!
Verification of the `chunkenc` Rust crate: the Gorilla-style XOR chunk codec
(bitstream.rs, chunk.rs, helper.rs, error.rs) embedded shallowly in Lean.

Modelling conventions:
* `u64`/`u16`/`u8` values are `Nat`s kept below `2^64`/`2^16`/`2^8` by explicit
  reduction where the Rust code can overflow; `i64` values are `Int`s wrapped
  with `wrapI64` where the code's signed arithmetic can overflow.
* Arithmetic follows the semantics of an optimised (release-profile) Rust
  build: two's-complement wrapping on add/sub overflow, and shift amounts
  reduced modulo the bit width.  (A debug build would panic at exactly the
  sites where these reductions fire; every claim settled through such a site
  fails under either semantics.)
* An `f64` is represented by its IEEE-754 bit pattern (a `Nat < 2^64`): the
  code only ever moves values through `to_bits`/`from_bits` and XOR, so this
  is exact, NaN payloads included.
* Rust `Option`/`Result` become `Option`/`Except`; a `panic!`/`unwrap`
  failure that the claims must observe is modelled by an explicit `Option`
  layer at the function that panics.
-/

set_option maxRecDepth 100000

namespace Chunkenc

/-- Two's-complement wrapping of an unbounded `Int` into the `i64` range. -/
def wrapI64 (x : Int) : Int := ((x + 2 ^ 63) % 2 ^ 64) - 2 ^ 63

/-- The `as u64` cast of an `i64` value. -/
def i64ToU64 (x : Int) : Nat := (x % 2 ^ 64).toNat

/-- The `as i64` cast of a `u64` value. -/
def u64ToI64 (n : Nat) : Int := if n < 2 ^ 63 then (n : Int) else (n : Int) - 2 ^ 64

/-- Rust release-profile `u64` left shift: the amount is reduced mod 64 and
the value wraps mod `2^64`. -/
def shl64 (x n : Nat) : Nat := (x <<< (n % 64)) % 2 ^ 64

/-- Rust release-profile `u64` right shift: the amount is reduced mod 64. -/
def shr64 (x n : Nat) : Nat := (x % 2 ^ 64) >>> (n % 64)

/-- Left shift of a `u64` by an `isize` amount (used by `write_bits`); a
negative amount is reduced as its two's-complement bits are, i.e. mod 64. -/
def shlI64 (x : Nat) (n : Int) : Nat := (x <<< (n % 64).toNat) % 2 ^ 64

/-- Rust release-profile `u8` wrapping subtraction. -/
def wsub8 (a b : Nat) : Nat := (a + 256 - b % 256) % 256

/-- Leading zeros of a `u64` (`u64::leading_zeros`). -/
def lz64 (x : Nat) : Nat := 64 - bitLenAux 64 x
where
  bitLenAux : Nat → Nat → Nat
    | 0, _ => 0
    | f + 1, x => if x = 0 then 0 else bitLenAux f (x / 2) + 1

/-- Trailing zeros of a `u64` (`u64::trailing_zeros`). -/
def tz64 (x : Nat) : Nat := if x = 0 then 64 else tzAux 64 x
where
  tzAux : Nat → Nat → Nat
    | 0, _ => 0
    | f + 1, x => if x % 2 = 1 then 0 else 1 + tzAux f (x / 2)

/-- The bit-level writer of bitstream.rs: a growable byte buffer `data` and
`count`, the number of bits still free in the last byte. -/
structure BitStream where
  data : List Nat
  count : Nat
deriving DecidableEq, Repr

namespace BitStream

/-- `BitStream::new`. -/
def new : BitStream := ⟨[], 0⟩

/-- `BitStream::write_bit`: if the last byte is full, append a zero byte and
set `count := 8`; set bit `count - 1` of the last byte when the bit is one;
decrement `count`. -/
def write_bit (bs : BitStream) (bit : Bool) : BitStream :=
  let data := if bs.count = 0 then bs.data ++ [0] else bs.data
  let count := if bs.count = 0 then 8 else bs.count
  let i := data.length - 1
  let data := if bit then data.set i ((data.getD i 0) ||| (1 <<< (count - 1))) else data
  ⟨data, count - 1⟩

/-- `BitStream::write_byte`: OR the top `count` bits of `b` into the current
byte, append a fresh byte holding the remaining `8 - count` bits of `b` in
its high positions; `count` is unchanged. -/
def write_byte (bs : BitStream) (b : Nat) : BitStream :=
  let data := if bs.count = 0 then bs.data ++ [0] else bs.data
  let count := if bs.count = 0 then 8 else bs.count
  let i := data.length - 1
  let data := data.set i ((data.getD i 0) ||| (b >>> (8 - count)))
  let data := data ++ [0]
  let data := data.set (i + 1) ((b <<< count) % 256)
  ⟨data, count⟩

/-- The `while nbits >= 8` loop of `write_bits`, run `k` times: write the top
byte of `u` and shift `u` left by 8. -/
def writeBytesPhase : Nat → BitStream → Nat → BitStream × Nat
  | 0, bs, u => (bs, u)
  | k + 1, bs, u => writeBytesPhase k (bs.write_byte ((shr64 u 56) % 256)) (shl64 u 8)

/-- The `while nbits > 0` loop of `write_bits`, run `k` times: write the top
bit of `u` and shift `u` left by 1. -/
def writeBitsPhase : Nat → BitStream → Nat → BitStream
  | 0, bs, _ => bs
  | k + 1, bs, u => writeBitsPhase k (bs.write_bit (shr64 u 63 = 1)) (shl64 u 1)

/-- `BitStream::write_bits`: left-justify the `nbits` significant bits of `u`
in a `u64`, then emit whole bytes while at least 8 bits remain and single
bits for the remainder. -/
def write_bits (bs : BitStream) (u : Nat) (nbits : Nat) : BitStream :=
  let u := shlI64 u (64 - (nbits : Int))
  let (bs, u) := writeBytesPhase (nbits / 8) bs u
  writeBitsPhase (nbits % 8) bs u

end BitStream

/-- The error enum of error.rs.  `AppendOverflow` is declared there but — as
the theorems below show — never constructed by the code. -/
inductive Err where
  | EOF
  | ReadError
  | AppendOverflow
deriving DecidableEq, Repr

/-- The bit-level reader of bitstream.rs: a byte stream, a cursor, and a
64-bit refill register whose low `valid` bits are still to be consumed. -/
structure Reader where
  stream : List Nat
  stream_offset : Nat
  buffer : Nat
  valid : Nat
deriving DecidableEq, Repr

namespace Reader

/-- `Reader::new`. -/
def new (stream : List Nat) : Reader := ⟨stream, 0, 0, 0⟩

/-- The byte-packing loop of `load_next_buffer`: OR byte `i` of the window at
bit position `8 * (nbytes - i - 1)`. -/
def packBytes (stream : List Nat) (offset nbytes : Nat) : Nat :=
  (List.range nbytes).foldl
    (fun acc i => acc ||| ((stream.getD (offset + i) 0) <<< (8 * (nbytes - i - 1)))) 0

/-- `Reader::load_next_buffer`: `false` at end of stream; a full 8-byte
big-endian refill when more than 8 bytes follow, otherwise a short refill of
`min (nbits / 8 + 1) remaining` bytes. -/
def load_next_buffer (r : Reader) (nbits : Nat) : Bool × Reader :=
  if r.stream_offset ≥ r.stream.length then (false, r)
  else if r.stream_offset + 8 < r.stream.length then
    (true, { r with buffer := packBytes r.stream r.stream_offset 8,
                    stream_offset := r.stream_offset + 8, valid := 64 })
  else
    let nbytes := if r.stream_offset + (nbits / 8 + 1) > r.stream.length
      then r.stream.length - r.stream_offset else nbits / 8 + 1
    (true, { r with buffer := packBytes r.stream r.stream_offset nbytes,
                    stream_offset := r.stream_offset + nbytes, valid := nbytes * 8 })

/-- `Reader::read_bits_fast`: serve `nbits` straight from the register.  Note
the source computes the mask as `(1 << nbits) - 1`, which for `nbits = 64`
reduces the shift amount to 0 and yields mask 0. -/
def read_bits_fast (r : Reader) (nbits : Nat) : Option (Nat × Reader) :=
  if nbits > r.valid then none
  else
    let bitmask := shl64 1 nbits - 1
    let valid := r.valid - nbits
    some (shr64 r.buffer valid &&& bitmask, { r with valid })

/-- `Reader::read_bits`: refill when the register is empty, else split the
read across the register and one refill.  The second half reproduces the
source's unchecked `self.valid - nbits`, which wraps when the refill comes
back short. -/
def read_bits (r : Reader) (nbits : Nat) : Option (Nat × Reader) :=
  if r.valid = 0 then
    match r.load_next_buffer nbits with
    | (false, _) => none
    | (true, r) => read_bits_go r nbits
  else read_bits_go r nbits
where
  read_bits_go (r : Reader) (nbits : Nat) : Option (Nat × Reader) :=
    if nbits ≤ r.valid then r.read_bits_fast nbits
    else
      let bitmask := shl64 1 r.valid - 1
      let nbits := nbits - r.valid
      let v := shl64 (r.buffer &&& bitmask) nbits
      let r := { r with valid := 0 }
      match r.load_next_buffer nbits with
      | (false, _) => none
      | (true, r) =>
        let bitmask := shl64 1 nbits - 1
        let v := v ||| (shr64 r.buffer (wsub8 r.valid nbits) &&& bitmask)
        some (v, { r with valid := wsub8 r.valid nbits })

/-- `Reader::read_bit_fast`. -/
def read_bit_fast (r : Reader) : Option (Bool × Reader) :=
  if r.valid = 0 then none
  else
    let valid := r.valid - 1
    let bitmask := shl64 1 valid
    some (r.buffer &&& bitmask ≠ 0, { r with valid })

/-- `Reader::read_bit`. -/
def read_bit (r : Reader) : Option (Bool × Reader) :=
  if r.valid = 0 then
    match r.load_next_buffer 1 with
    | (false, _) => none
    | (true, r) => r.read_bit_fast
  else r.read_bit_fast

/-- `Reader::try_read_bit`: the fast path first, the refilling path when it
declines (the fast path mutates nothing when it returns `None`). -/
def try_read_bit (r : Reader) : Option (Bool × Reader) :=
  match r.read_bit_fast with
  | some x => some x
  | none => r.read_bit

/-- `Reader::try_read_bits`. -/
def try_read_bits (r : Reader) (nbits : Nat) : Option (Nat × Reader) :=
  match r.read_bits_fast nbits with
  | some x => some x
  | none => r.read_bits nbits

/-- `Reader::read_byte` (`read_bits(8)` cast to `u8`). -/
def read_byte (r : Reader) : Option (Nat × Reader) :=
  (r.read_bits 8).map fun (v, r) => (v % 256, r)

end Reader

/-- The loop of `unsigned_varint::decode::u64` driven one byte at a time by
`io::read_u64` over `Reader`'s `std::io::Read` adapter (which serves
`read_byte` and turns its `None` into an error); the fuel argument is the
crate's hard 10-byte cap. -/
def readVarU64Aux : Nat → Reader → Nat → Nat → Except Err (Nat × Reader)
  | 0, _, _, _ => .error .ReadError
  | f + 1, r, i, acc =>
    match r.read_byte with
    | none => .error .ReadError
    | some (b, r) =>
      let acc := acc ||| (((b &&& 0x7f) <<< (7 * i)) % 2 ^ 64)
      if b &&& 0x80 = 0 then .ok (acc, r)
      else if i = 9 then .error .ReadError
      else readVarU64Aux f r (i + 1) acc

/-- `unsigned_varint::io::read_u64` over a `Reader`. -/
def readVarU64 (r : Reader) : Except Err (Nat × Reader) := readVarU64Aux 11 r 0 0

/-- The encoding loop of `unsigned_varint::encode::u64` (7 payload bits per
byte, continuation high bit); the fuel is its 10-byte buffer. -/
def encodeVarintAux : Nat → Nat → List Nat
  | 0, _ => []
  | f + 1, n => if n < 0x80 then [n] else (n % 0x80 + 0x80) :: encodeVarintAux f (n >>> 7)

/-- `unsigned_varint::encode::u64`. -/
def encodeVarint (n : Nat) : List Nat := encodeVarintAux 10 n

/-- helper.rs `encode_i64`: zig-zag then unsigned varint. -/
def encode_i64 (t : Int) : List Nat :=
  let ux := (i64ToU64 t <<< 1) % 2 ^ 64
  let ux := if t < 0 then 2 ^ 64 - 1 - ux else ux
  encodeVarint ux

/-- helper.rs `read_i64`: unsigned varint then zig-zag decode (`!x` on `i64`
is `-x - 1`). -/
def read_i64 (r : Reader) : Except Err (Int × Reader) :=
  match readVarU64 r with
  | .error e => .error e
  | .ok (ux, r) =>
    let x : Int := (ux >>> 1 : Nat)
    .ok (if ux &&& 1 ≠ 0 then -x - 1 else x, r)

/-- The chunk header: `u16::from_be_bytes` of the first two buffer bytes (the
code slices `[0..2]`, which is defined exactly when the buffer holds at least
two bytes, as every chunk does). -/
def headerU16 (data : List Nat) : Nat := 256 * data.getD 0 0 + data.getD 1 0

/-- chunk.rs `bit_range`: `-((1 << (nbits-1)) - 1) <= x && x <= 1 << (nbits-1)`. -/
def bit_range (x : Int) (nbits : Nat) : Bool :=
  decide (-((2 ^ (nbits - 1) : Int) - 1) ≤ x) && decide (x ≤ (2 ^ (nbits - 1) : Int))

/-- The encoder state of chunk.rs `XORAppender` with its borrowed
`BitStream` folded in as a field. -/
structure XORAppender where
  b : BitStream
  t : Int
  v : Nat
  t_delta : Nat
  leading : Nat
  trailing : Nat
deriving DecidableEq, Repr

/-- `XORAppender::write_v_delta`: the Gorilla value block — a `0` bit for an
unchanged value, else `1` and either a reused window (`0` + middle bits) or a
new window (`1` + 5-bit leading + 6-bit significant-count + middle bits). -/
def XORAppender.write_v_delta (a : XORAppender) (v : Nat) : XORAppender :=
  let v_delta := v ^^^ a.v
  if v_delta = 0 then { a with b := a.b.write_bit false }
  else
    let b := a.b.write_bit true
    let leading := lz64 v_delta % 256
    let leading := if 32 ≤ leading then 31 else leading
    let trailing := tz64 v_delta % 256
    if a.leading ≠ 0xff ∧ a.leading ≤ leading ∧ a.trailing ≤ trailing then
      { a with b := (b.write_bit false).write_bits (shr64 v_delta a.trailing)
                 (wsub8 (wsub8 64 a.leading) a.trailing) }
    else
      let b := b.write_bit true
      let b := b.write_bits leading 5
      let sigbits := wsub8 (wsub8 64 leading) trailing
      let b := b.write_bits sigbits 6
      let b := b.write_bits (shr64 v_delta trailing) sigbits
      { a with b, leading, trailing }

/-- The branch body of `XORAppender::append` for header value `n`: the first
sample is a zig-zag varint timestamp plus 64 raw value bits, the second a
plain varint delta plus a value block, and later samples a prefix-coded
delta-of-delta plus a value block.  Returns the written appender and the
local `t_delta`. -/
def XORAppender.appendBody (a : XORAppender) (t : Int) (v : Nat) (n : Nat) :
    XORAppender × Nat :=
  if n = 0 then
    let b := (encode_i64 t).foldl BitStream.write_byte a.b
    ({ a with b := b.write_bits v 64 }, 0)
  else if n = 1 then
    let t_delta := i64ToU64 (wrapI64 (t - a.t))
    let b := (encodeVarint t_delta).foldl BitStream.write_byte a.b
    (XORAppender.write_v_delta { a with b } v, t_delta)
  else
    let t_delta := i64ToU64 (wrapI64 (t - a.t))
    let dod := wrapI64 (u64ToI64 t_delta - u64ToI64 a.t_delta)
    let b :=
      if dod = 0 then a.b.write_bit false
      else if bit_range dod 14 then (a.b.write_bits 0x02 2).write_bits (i64ToU64 dod) 14
      else if bit_range dod 17 then (a.b.write_bits 0x06 3).write_bits (i64ToU64 dod) 17
      else if bit_range dod 20 then (a.b.write_bits 0x06 4).write_bits (i64ToU64 dod) 20
      else (a.b.write_bits 0x0f 4).write_bits (i64ToU64 dod) 64
    (XORAppender.write_v_delta { a with b } v, t_delta)

/-- `XORAppender::append` (chunk.rs lines 189-245): read `n` from the
header, run the branch body, update the `t`/`v`/`t_delta` state, then
rewrite the header as `(n + 1)` big-endian (`n + 1` wraps as a `u16` — the
code has no overflow check, only a TODO comment, and nothing ever returns
`AppendOverflow`: the trait method cannot fail). -/
def XORAppender.append (a : XORAppender) (t : Int) (v : Nat) : XORAppender :=
  let n := headerU16 a.b.data
  let (a, t_delta) := a.appendBody t v n
  let m := (n + 1) % 65536
  { a with t, v, t_delta,
           b := { a.b with data := (a.b.data.set 0 (m >>> 8)).set 1 (m % 256) } }

/-- The decoder state of chunk.rs `XORIterator`. -/
structure XORIterator where
  br : Reader
  num_total : Nat
  num_read : Nat
  t : Int
  v : Nat
  leading : Nat
  trailing : Nat
  t_delta : Nat
deriving DecidableEq, Repr

/-- The value-block part of `XORIterator::read_value`: everything before the
final `num_read += 1`, returning the updated cursor, window and value bits. -/
def readValueCore (br : Reader) (leading trailing v : Nat) :
    Except Err (Reader × Nat × Nat × Nat) :=
  match br.try_read_bit with
  | none => .error .EOF
  | some (b, br) =>
    if b = false then .ok (br, leading, trailing, v)
    else
      match br.try_read_bit with
      | none => .error .EOF
      | some (b2, br) =>
        let window : Except Err (Reader × Nat × Nat) :=
          if b2 = false then .ok (br, leading, trailing)
          else
            match br.try_read_bits 5 with
            | none => .error .EOF
            | some (bits, br) =>
              let leading := bits % 256
              match br.try_read_bits 6 with
              | none => .error .EOF
              | some (bits, br) =>
                let mbits := if bits = 0 then 64 else bits % 256
                .ok (br, leading, wsub8 (wsub8 64 leading) mbits)
        match window with
        | .error e => .error e
        | .ok (br, leading, trailing) =>
          let mbits := wsub8 (wsub8 64 leading) trailing
          match br.try_read_bits mbits with
          | none => .error .EOF
          | some (bits, br) => .ok (br, leading, trailing, v ^^^ shl64 bits trailing)

/-- `XORIterator::read_value`: decode the value block, then `num_read += 1`
(a `u16` increment) and `Ok(true)`. -/
def XORIterator.read_value (it : XORIterator) : Except Err (Bool × XORIterator) :=
  match readValueCore it.br it.leading it.trailing it.v with
  | .error e => .error e
  | .ok (br, leading, trailing, v) =>
    .ok (true, { it with br, leading, trailing, v, num_read := (it.num_read + 1) % 65536 })

/-- The delta-of-delta control-bit loop of `XORIterator::next`: up to four
bits, shifting first and stopping at the first `0`. -/
def dodCodeAux : Nat → Nat → Reader → Except Err (Nat × Reader)
  | 0, d, br => .ok (d, br)
  | k + 1, d, br =>
    let d := d <<< 1
    match br.try_read_bit with
    | none => .error .EOF
    | some (bit, br) => if bit then dodCodeAux k (d ||| 1) br else .ok (d, br)

/-- The sign extension of a finite-width dod payload (chunk.rs lines
358-364): subtract `1 << sz` exactly when the unsigned payload is strictly
greater than `1 << (sz - 1)`, then cast to `i64`. -/
def signExtendDod (sz bits : Nat) : Int :=
  let bits := if bits > 1 <<< (sz - 1) then i64ToU64 ((bits : Int) - ((1 <<< sz : Nat) : Int))
              else bits
  u64ToI64 bits

/-- The tail of the `num_read >= 2` branch of `next` once the control code
has fixed `sz` and (for the 64-bit case) `dod`: read and sign-extend a
finite-width payload when `sz != 0`, accumulate `t_delta` and `t`, then
decode the value block. -/
def nextDodTail (it : XORIterator) (sz : Nat) (dod : Int) (br : Reader) :
    Except Err (Bool × XORIterator) :=
  let dodRes : Except Err (Int × Reader) :=
    if sz ≠ 0 then
      match br.try_read_bits sz with
      | none => .error .EOF
      | some (bits, br) => .ok (signExtendDod sz bits, br)
    else .ok (dod, br)
  match dodRes with
  | .error e => .error e
  | .ok (dod, br) =>
    let t_delta := i64ToU64 (wrapI64 (u64ToI64 it.t_delta + dod))
    XORIterator.read_value
      { it with br, t_delta, t := wrapI64 (it.t + u64ToI64 t_delta) }

/-- `XORIterator::next` (chunk.rs lines 304-370). -/
def XORIterator.next (it : XORIterator) : Except Err (Bool × XORIterator) :=
  if it.num_read = it.num_total then .ok (false, it)
  else if it.num_read = 0 then
    match read_i64 it.br with
    | .error e => .error e
    | .ok (t, br) =>
      match br.read_bits 64 with
      | none => .error .EOF
      | some (v, br) =>
        .ok (true, { it with br, t, v, num_read := (it.num_read + 1) % 65536 })
  else if it.num_read = 1 then
    match readVarU64 it.br with
    | .error e => .error e
    | .ok (t_delta, br) =>
      XORIterator.read_value
        { it with br, t_delta, t := wrapI64 (it.t + u64ToI64 t_delta) }
  else
    match dodCodeAux 4 0 it.br with
    | .error e => .error e
    | .ok (d, br) =>
      if d = 0x02 then nextDodTail it 14 0 br
      else if d = 0x06 then nextDodTail it 17 0 br
      else if d = 0x0e then nextDodTail it 20 0 br
      else if d = 0x0f then
        match br.read_bits 64 with
        | none => .error .EOF
        | some (bits, br) => nextDodTail it 0 (u64ToI64 bits) br
      else nextDodTail it 0 0 br

/-- `XORIterator::at`. -/
def XORIterator.at (it : XORIterator) : Int × Nat := (it.t, it.v)

/-- `XORIterator::seek`, made total with a fuel argument: `none` marks a run
that is still looping after `fuel` iterations.  The loop body discards the
boolean that `next` returns. -/
def XORIterator.seek : Nat → XORIterator → Int → Option (Except Err (Bool × XORIterator))
  | 0, _, _ => none
  | fuel + 1, it, t =>
    if t > it.t ∨ it.num_read = 0 then
      match it.next with
      | .error e => some (.error e)
      | .ok (_, it) => XORIterator.seek fuel it t
    else some (.ok (true, it))

/-- A chunk is its `BitStream` (chunk.rs `XORChunk`). -/
def XORChunk.new : BitStream := ⟨[0, 0], 0⟩

/-- `XORChunk::num_samples`. -/
def XORChunk.num_samples (c : BitStream) : Nat := headerU16 c.data

/-- `XORChunk::_iterator` / `XORChunk::iterator`: a fresh cursor over the
body bytes, `t` starting at `i64::MIN`. -/
def XORChunk.iterator (c : BitStream) : XORIterator :=
  { br := Reader.new (c.data.drop 2)
    num_total := headerU16 c.data
    num_read := 0
    t := -(2 ^ 63)
    v := 0
    leading := 0
    trailing := 0
    t_delta := 0 }

/-- The `while it.next()? {}` replay loop of `XORChunk::appender`. -/
def replayAux : Nat → XORIterator → Except Err XORIterator
  | 0, it => .ok it
  | f + 1, it =>
    match it.next with
    | .error e => .error e
    | .ok (false, it) => .ok it
    | .ok (true, it) => replayAux f it

/-- `XORChunk::appender`: replay the whole body through an iterator, then
rebuild the encoder state.  The source then runs
`u16::from_be_bytes(self.b.as_ref().try_into().unwrap())` on the WHOLE
buffer: the slice-to-`[u8; 2]` conversion succeeds only when the buffer is
exactly two bytes long, so the outer `Option` is `none` — an `unwrap` panic —
for every chunk with a non-empty body. -/
def XORChunk.appender (c : BitStream) : Option (Except Err XORAppender) :=
  let it0 := XORChunk.iterator c
  match replayAux (it0.num_total + 1) it0 with
  | .error e => some (.error e)
  | .ok it =>
    if c.data.length = 2 then
      some (.ok { b := c, t := it.t, v := it.v, t_delta := it.t_delta,
                  leading := if headerU16 c.data = 0 then 0xff else it.leading,
                  trailing := it.trailing })
    else none

/-- The appender state `XORChunk::appender` yields on a fresh chunk. -/
def freshAppender : XORAppender :=
  { b := XORChunk.new, t := -(2 ^ 63), v := 0, t_delta := 0, leading := 0xff, trailing := 0 }

/-- Appending a list of `(timestamp, value-bit-pattern)` samples in order. -/
def appendList (a : XORAppender) (samples : List (Int × Nat)) : XORAppender :=
  samples.foldl (fun a s => a.append s.1 s.2) a

/-- The chunk built by appending `samples` to a fresh chunk. -/
def encodeChunk (samples : List (Int × Nat)) : BitStream :=
  (appendList freshAppender samples).b

/-- The `while it.next()? { it.at() }` read-out loop over a whole chunk. -/
def decodeAllAux : Nat → XORIterator → List (Int × Nat) → Except Err (List (Int × Nat))
  | 0, _, acc => .ok acc.reverse
  | f + 1, it, acc =>
    match it.next with
    | .error e => .error e
    | .ok (false, _) => .ok acc.reverse
    | .ok (true, it) => decodeAllAux f it (it.at :: acc)

/-- Every sample a fresh iterator over `c` yields, in order. -/
def decodeAll (c : BitStream) : Except Err (List (Int × Nat)) :=
  decodeAllAux 65537 (XORChunk.iterator c) []

/-- Running `next` to completion `k` times: `some` exactly when every one of
the `k` calls returned `Ok(true)`. -/
def nextN : Nat → XORIterator → Option XORIterator
  | 0, it => some it
  | k + 1, it =>
    match it.next with
    | .ok (true, it) => nextN k it
    | _ => none

/-- Structural invariant of every chunk buffer: the two header bytes are
present, and whenever a partially filled byte exists the buffer already has a
body byte (so bit writes land at index 2 or later). -/
def HInv (bs : BitStream) : Prop :=
  2 ≤ bs.data.length ∧ (0 < bs.count → 3 ≤ bs.data.length)

/-- Bit `i` (MSB-first) of the body of a chunk, counting from the first bit
after the two header bytes. -/
def bodyBit (c : BitStream) (i : Nat) : Nat :=
  (c.data.getD (2 + i / 8) 0) >>> (7 - i % 8) &&& 1

/-- Bit pattern of the IEEE-754 double 1.0. -/
def f64One : Nat := 0x3FF0000000000000

/-- Bit pattern of the IEEE-754 double 2.0. -/
def f64Two : Nat := 0x4000000000000000

/-- A single-sample chunk whose first timestamp needs an 8-byte varint, so
that the decoder's 64-bit value read starts on an empty register. -/
def chunkC1 : BitStream := encodeChunk [((2 ^ 48 : Int), f64Two)]

/-- A three-sample chunk whose third append has `dod = 131072`, inside the
20-bit bucket and outside the 17- and 14-bit ones. -/
def chunkC2 : BitStream := encodeChunk [(0, f64One), (1, f64One), (131074, f64One)]

/-- A one-sample chunk. -/
def chunkC4 : BitStream := encodeChunk [(1, f64One)]

/-- The one-sample chunk `[(1, 1.0)]` used against `seek`. -/
def chunkC5 : BitStream := encodeChunk [(1, f64One)]

/-- The iterator state over `chunkC5` after its single sample has been
read: `num_read = num_total = 1`, cursor at `t = 1`. -/
def itC5done : XORIterator :=
  { br := ⟨[2, 63, 240, 0, 0, 0, 0, 0, 0, 0], 10, 0, 8⟩,
    num_total := 1, num_read := 1, t := 1, v := f64One,
    leading := 0, trailing := 0, t_delta := 0 }

/-- The two-sample chunk `[(1, 1.0), (2, 1.0)]` used for seeking. -/
def chunkC6 : BitStream := encodeChunk [(1, f64One), (2, f64One)]

/-- The iterator state over `chunkC6` after one sample (`t = 1`). -/
def itC6mid : XORIterator :=
  { br := ⟨[2, 63, 240, 0, 0, 0, 0, 0, 0, 1, 0], 10, 1, 8⟩,
    num_total := 2, num_read := 1, t := 1, v := f64One,
    leading := 0, trailing := 0, t_delta := 0 }

/-- The iterator state over `chunkC6` after both samples (`t = 2`). -/
def itC6done : XORIterator :=
  { br := ⟨[2, 63, 240, 0, 0, 0, 0, 0, 0, 1, 0], 11, 0, 7⟩,
    num_total := 2, num_read := 2, t := 2, v := f64One,
    leading := 0, trailing := 0, t_delta := 1 }

/-- The reader state after 7 of the 16 bits of the stream `[0xAB, 0xCD]`
have been consumed. -/
def rdC8 : Reader := ⟨[0xAB, 0xCD], 1, 0xAB, 1⟩

/-- A three-sample witness list whose header the invariants below track. -/
def samplesC7 : List (Int × Nat) := [(1, f64One), (5, f64Two), (7, f64Two)]

/-- An appender over a buffer whose header already reads 65535. -/
def aFullC3 : XORAppender := ⟨⟨[255, 255], 0⟩, 0, 0, 0, 255, 0⟩

/-- Sanity: `XORChunk::appender` on a fresh chunk succeeds and yields the
initial encoder state (`leading` at its `0xff` sentinel). -/
theorem appender_fresh : XORChunk.appender XORChunk.new = some (.ok freshAppender) := rfl

/-- C1.  The primary round-trip invariant fails on the code: for the valid
one-sample sequence `[(2^48, 2.0)]` (length ≤ 65535, trivially
non-decreasing), the decoder's 64-bit value read computes its mask as
`(1u64 << 64) - 1`, whose shift amount an optimised Rust build reduces to 0
(a debug build panics here), so the mask is 0 and the value decodes as the
bit pattern 0 instead of that of 2.0: iteration yields `[(2^48, 0.0)]`, not
the appended sequence. -/
theorem c1_roundtrip_code_bug :
    decodeAll chunkC1 = .ok [((2 ^ 48 : Int), 0)] ∧ (0 : Nat) ≠ f64Two := by
  exact ⟨rfl, by decide⟩

/-- C2.  The encoder does NOT emit the prefix `1110` for the 20-bit bucket:
chunk.rs line 229 writes `0x06` in 4 bits, i.e. `0110`.  For `dod = 131072`
(in the 20-bit bucket only), the four bits the encoder emits at the third
sample's prefix position (body bit 81) are `0,1,1,0`, so the decoder's
bit-by-bit accumulation stops at the very first `0`, yields code `0x00`
(`dod = 0`) instead of `0x0E`, and the chunk decodes with a wrong third
timestamp (2 instead of 131074). -/
theorem c2_dod20_code_bug :
    bit_range 131072 20 = true ∧ bit_range 131072 17 = false ∧
    bit_range 131072 14 = false ∧
    [bodyBit chunkC2 81, bodyBit chunkC2 82, bodyBit chunkC2 83, bodyBit chunkC2 84] =
      [0, 1, 1, 0] ∧
    decodeAll chunkC2 = .ok [(0, f64One), (1, f64One), (2, f64One)] ∧
    (2 : Int) ≠ 131074 := by
  exact ⟨by decide, by decide, by decide, by decide, rfl, by decide⟩

/-- C4.  Resumable appends are impossible: `XORChunk::appender` converts the
WHOLE buffer — not its first two bytes — into a `[u8; 2]` and unwraps, so on
any chunk with at least one sample (buffer longer than two bytes) it panics
(the outer `none`) instead of rebuilding the encoder state; no resumed
append sequence can even start, let alone produce a byte-identical chunk. -/
theorem c4_resume_code_bug :
    XORChunk.appender chunkC4 = none ∧ chunkC4.data.length ≠ 2 := by
  exact ⟨rfl, by decide⟩

/-- C8.  `try_read_bits` is not total at EOF: with 9 bits left (stream
`[0xAB, 0xCD]` after a 7-bit read), `try_read_bits(10)` does not return
`None` — the refill comes back with only 8 valid bits and the unchecked
`self.valid - nbits` wraps (an optimised build then returns the garbage
value 512 with `valid = 255`; a debug build panics on the subtraction). -/
theorem c8_eof_code_bug :
    Reader.read_bits (Reader.new [0xAB, 0xCD]) 7 = some (85, rdC8) ∧
    8 * (rdC8.stream.length - rdC8.stream_offset) + rdC8.valid < 10 ∧
    Reader.try_read_bits rdC8 10 = some (512, ⟨[0xAB, 0xCD], 2, 0xCD, 255⟩) := by
  exact ⟨rfl, by decide, rfl⟩

/-- C10.  The BitStream round-trip fails at width 64: writing the value 1
with `write_bits(1, 64)` and reading it back with `try_read_bits(64)` yields
0, not 1 — `read_bits_fast` computes its mask as `(1u64 << 64) - 1`, which
an optimised Rust build evaluates as `(1 << 0) - 1 = 0` (a debug build
panics), so every 64-bit read served straight from a full register returns
0. -/
theorem c10_bitstream_code_bug :
    (BitStream.new.write_bits 1 64).data = [0, 0, 0, 0, 0, 0, 0, 1, 0] ∧
    Reader.try_read_bits (Reader.new (BitStream.new.write_bits 1 64).data) 64 =
      some (0, ⟨[0, 0, 0, 0, 0, 0, 0, 1, 0], 8, 1, 0⟩) ∧
    (0 : Nat) ≠ 1 := by
  exact ⟨rfl, rfl, by decide⟩

/-- C9 counterexample.  The claim says a finite-width dod payload exactly
equal to `1 << (w-1)` is sign-extended to the negative value
`(1 << (w-1)) - (1 << w)`; the decoder's comparison is strict (`>`), so for
`w = 14` the payload `2^13 = 8192` decodes to `+8192`, not `8192 - 16384`. -/
theorem c9_signext_counterexample :
    signExtendDod 14 (1 <<< 13) = 8192 ∧ (8192 : Int) ≠ 8192 - 16384 := by
  exact ⟨by decide, by decide⟩

/-- A finished iterator never advances: with `num_read = num_total`, `next`
returns `Ok(false)` and leaves the state unchanged. -/
theorem next_at_end (it : XORIterator) (h : it.num_read = it.num_total) :
    it.next = .ok (false, it) := by
  unfold XORIterator.next
  rw [if_pos h]

/-- One unrolling of the `seek` loop while its condition holds. -/
theorem seek_step (fuel : Nat) (it : XORIterator) (t : Int)
    (hc : t > it.t ∨ it.num_read = 0) :
    XORIterator.seek (fuel + 1) it t =
      match it.next with
      | .error e => some (.error e)
      | .ok (_, it') => XORIterator.seek fuel it' t := by
  simp only [XORIterator.seek, if_pos hc]

/-- Once the iterator is exhausted short of the target, the `seek` loop never
again makes progress: `next` keeps answering `Ok(false)` without moving `t`,
the loop discards that boolean, and no amount of fuel reaches an exit. -/
theorem seek_loops_at_end (it : XORIterator) (t : Int)
    (hend : it.num_read = it.num_total) (ht : t > it.t) :
    ∀ fuel, XORIterator.seek fuel it t = none := by
  intro fuel
  induction fuel with
  | zero => rfl
  | succ n ih =>
    rw [seek_step n it t (Or.inl ht), next_at_end it hend]
    exact ih

/-- C5.  After the clean end of the chunk `seek` does not return `false` (or
anything): on the chunk `[(1, 1.0)]` with target `t* = 2`, the loop
`while t > self.t || self.num_read == 0 { self.next()?; }` spins forever,
because at the clean end `next` returns `Ok(false)` with the state unchanged
and the loop ignores the `false`.  In the fuel model no fuel suffices. -/
theorem c5_seek_code_bug (fuel : Nat) :
    XORIterator.seek fuel (XORChunk.iterator chunkC5) 2 = none := by
  cases fuel with
  | zero => rfl
  | succ n =>
    have h1 : (XORChunk.iterator chunkC5).next = .ok (true, itC5done) := rfl
    rw [seek_step n (XORChunk.iterator chunkC5) 2 (Or.inr rfl), h1]
    exact seek_loops_at_end itC5done 2 rfl (by decide) n

theorem write_bit_keeps (bs : BitStream) (b : Bool) (h : HInv bs) :
    HInv (bs.write_bit b) ∧ (bs.write_bit b).data[0]? = bs.data[0]? ∧
      (bs.write_bit b).data[1]? = bs.data[1]? := by
  obtain ⟨h2, h3⟩ := h
  unfold HInv BitStream.write_bit
  by_cases hc : bs.count = 0 <;> cases b <;>
    simp only [hc, if_true, if_false, ite_true, ite_false, Bool.false_eq_true,
      List.length_set, List.length_append, List.length_cons,
      List.length_nil, reduceIte] <;>
    refine ⟨⟨by omega, fun _ => by omega⟩, ?_, ?_⟩ <;>
  first
  | rw [List.getElem?_set_ne (by omega), List.getElem?_append_left (by omega)]
  | rw [List.getElem?_append_left (by omega)]
  | rw [List.getElem?_set_ne (by omega)]
  | trivial

theorem write_byte_keeps (bs : BitStream) (b : Nat) (h : HInv bs) :
    HInv (bs.write_byte b) ∧ (bs.write_byte b).data[0]? = bs.data[0]? ∧
      (bs.write_byte b).data[1]? = bs.data[1]? := by
  obtain ⟨h2, h3⟩ := h
  unfold HInv BitStream.write_byte
  by_cases hc : bs.count = 0 <;>
    simp only [hc, if_true, if_false, ite_true, ite_false, List.length_set,
      List.length_append, List.length_cons, List.length_nil, reduceIte] <;>
    refine ⟨⟨by omega, fun _ => by omega⟩, ?_, ?_⟩ <;>
    rw [List.getElem?_set_ne (by omega),
        List.getElem?_append_left (by simp only [List.length_set, List.length_append,
          List.length_cons, List.length_nil]; omega),
        List.getElem?_set_ne (by omega)] <;>
    try rw [List.getElem?_append_left (by omega)]

theorem writeBytesPhase_keeps (k : Nat) : ∀ (bs : BitStream) (u : Nat), HInv bs →
    HInv (BitStream.writeBytesPhase k bs u).1 ∧
    (BitStream.writeBytesPhase k bs u).1.data[0]? = bs.data[0]? ∧
    (BitStream.writeBytesPhase k bs u).1.data[1]? = bs.data[1]? := by
  induction k with
  | zero => intro bs u h; exact ⟨h, rfl, rfl⟩
  | succ n ih =>
    intro bs u h
    obtain ⟨h1, e0, e1⟩ := write_byte_keeps bs (shr64 u 56 % 256) h
    obtain ⟨h2, f0, f1⟩ := ih (bs.write_byte (shr64 u 56 % 256)) (shl64 u 8) h1
    exact ⟨h2, f0.trans e0, f1.trans e1⟩

theorem writeBitsPhase_keeps (k : Nat) : ∀ (bs : BitStream) (u : Nat), HInv bs →
    HInv (BitStream.writeBitsPhase k bs u) ∧
    (BitStream.writeBitsPhase k bs u).data[0]? = bs.data[0]? ∧
    (BitStream.writeBitsPhase k bs u).data[1]? = bs.data[1]? := by
  induction k with
  | zero => intro bs u h; exact ⟨h, rfl, rfl⟩
  | succ n ih =>
    intro bs u h
    obtain ⟨h1, e0, e1⟩ := write_bit_keeps bs (shr64 u 63 = 1) h
    obtain ⟨h2, f0, f1⟩ := ih (bs.write_bit (shr64 u 63 = 1)) (shl64 u 1) h1
    exact ⟨h2, f0.trans e0, f1.trans e1⟩

theorem write_bits_keeps (bs : BitStream) (u nbits : Nat) (h : HInv bs) :
    HInv (bs.write_bits u nbits) ∧ (bs.write_bits u nbits).data[0]? = bs.data[0]? ∧
      (bs.write_bits u nbits).data[1]? = bs.data[1]? := by
  obtain ⟨hA, a0, a1⟩ :=
    writeBytesPhase_keeps (nbits / 8) bs (shlI64 u (64 - (nbits : Int))) h
  obtain ⟨hB, b0, b1⟩ := writeBitsPhase_keeps (nbits % 8)
      (BitStream.writeBytesPhase (nbits / 8) bs (shlI64 u (64 - (nbits : Int)))).1
      (BitStream.writeBytesPhase (nbits / 8) bs (shlI64 u (64 - (nbits : Int)))).2 hA
  exact ⟨hB, b0.trans a0, b1.trans a1⟩

theorem foldl_write_byte_keeps (l : List Nat) : ∀ (bs : BitStream), HInv bs →
    HInv (l.foldl BitStream.write_byte bs) ∧
    (l.foldl BitStream.write_byte bs).data[0]? = bs.data[0]? ∧
    (l.foldl BitStream.write_byte bs).data[1]? = bs.data[1]? := by
  induction l with
  | nil => intro bs h; exact ⟨h, rfl, rfl⟩
  | cons x xs ih =>
    intro bs h
    obtain ⟨h1, e0, e1⟩ := write_byte_keeps bs x h
    obtain ⟨h2, f0, f1⟩ := ih (bs.write_byte x) h1
    exact ⟨h2, f0.trans e0, f1.trans e1⟩

theorem write_bits2_keeps (bs : BitStream) (u1 n1 u2 n2 : Nat) (h : HInv bs) :
    HInv ((bs.write_bits u1 n1).write_bits u2 n2) ∧
    ((bs.write_bits u1 n1).write_bits u2 n2).data[0]? = bs.data[0]? ∧
    ((bs.write_bits u1 n1).write_bits u2 n2).data[1]? = bs.data[1]? := by
  obtain ⟨h1, e0, e1⟩ := write_bits_keeps bs u1 n1 h
  obtain ⟨h2, f0, f1⟩ := write_bits_keeps (bs.write_bits u1 n1) u2 n2 h1
  exact ⟨h2, f0.trans e0, f1.trans e1⟩

theorem write_bits3_keeps (bs : BitStream) (u1 n1 u2 n2 u3 n3 : Nat) (h : HInv bs) :
    HInv (((bs.write_bits u1 n1).write_bits u2 n2).write_bits u3 n3) ∧
    (((bs.write_bits u1 n1).write_bits u2 n2).write_bits u3 n3).data[0]? = bs.data[0]? ∧
    (((bs.write_bits u1 n1).write_bits u2 n2).write_bits u3 n3).data[1]? = bs.data[1]? := by
  obtain ⟨h1, e0, e1⟩ := write_bits2_keeps bs u1 n1 u2 n2 h
  obtain ⟨h2, f0, f1⟩ := write_bits_keeps ((bs.write_bits u1 n1).write_bits u2 n2) u3 n3 h1
  exact ⟨h2, f0.trans e0, f1.trans e1⟩

theorem write_v_delta_keeps (a : XORAppender) (v : Nat) (h : HInv a.b) :
    HInv (a.write_v_delta v).b ∧ (a.write_v_delta v).b.data[0]? = a.b.data[0]? ∧
      (a.write_v_delta v).b.data[1]? = a.b.data[1]? := by
  unfold XORAppender.write_v_delta
  by_cases h0 : v ^^^ a.v = 0
  · simp only [h0, if_true, reduceIte]
    exact write_bit_keeps a.b false h
  · simp only [h0, if_false, reduceIte]
    have hb1 := write_bit_keeps a.b true h
    split_ifs <;>
    first
    | (obtain ⟨h1, e0, e1⟩ := hb1
       obtain ⟨h2, f0, f1⟩ := write_bit_keeps (a.b.write_bit true) false h1
       obtain ⟨h3, g0, g1⟩ := write_bits_keeps ((a.b.write_bit true).write_bit false)
         (shr64 (v ^^^ a.v) a.trailing) (wsub8 (wsub8 64 a.leading) a.trailing) h2
       exact ⟨h3, (g0.trans f0).trans e0, (g1.trans f1).trans e1⟩)
    | (obtain ⟨h1, e0, e1⟩ := hb1
       obtain ⟨h2, f0, f1⟩ := write_bit_keeps (a.b.write_bit true) true h1
       obtain ⟨h3, g0, g1⟩ := write_bits3_keeps ((a.b.write_bit true).write_bit true)
         _ 5 _ 6 _ _ h2
       exact ⟨h3, (g0.trans f0).trans e0, (g1.trans f1).trans e1⟩)

theorem appendBody_keeps (a : XORAppender) (t : Int) (v : Nat) (n : Nat) (h : HInv a.b) :
    HInv (a.appendBody t v n).1.b ∧
    (a.appendBody t v n).1.b.data[0]? = a.b.data[0]? ∧
    (a.appendBody t v n).1.b.data[1]? = a.b.data[1]? := by
  unfold XORAppender.appendBody
  by_cases h0 : n = 0
  · simp only [h0, if_true, reduceIte]
    obtain ⟨hA, a0, a1⟩ := foldl_write_byte_keeps (encode_i64 t) a.b h
    obtain ⟨hB, b0, b1⟩ :=
      write_bits_keeps ((encode_i64 t).foldl BitStream.write_byte a.b) v 64 hA
    exact ⟨hB, b0.trans a0, b1.trans a1⟩
  · by_cases h1 : n = 1
    · simp only [h0, h1, if_true, if_false, reduceIte]
      obtain ⟨hA, a0, a1⟩ :=
        foldl_write_byte_keeps (encodeVarint (i64ToU64 (wrapI64 (t - a.t)))) a.b h
      obtain ⟨hB, b0, b1⟩ := write_v_delta_keeps
        { a with
          b := List.foldl BitStream.write_byte a.b (encodeVarint (i64ToU64 (wrapI64 (t - a.t)))) }
        v hA
      exact ⟨hB, b0.trans a0, b1.trans a1⟩
    · simp only [h0, h1, if_false, reduceIte]
      split_ifs with hd1 hd2 hd3 hd4
      · obtain ⟨hA, a0, a1⟩ := write_bit_keeps a.b false h
        obtain ⟨hB, b0, b1⟩ := write_v_delta_keeps { a with b := a.b.write_bit false } v hA
        exact ⟨hB, b0.trans a0, b1.trans a1⟩
      · obtain ⟨hA, a0, a1⟩ := write_bits2_keeps a.b 0x02 2 (i64ToU64 (wrapI64 (u64ToI64 (i64ToU64 (wrapI64 (t - a.t))) - u64ToI64 a.t_delta))) 14 h
        obtain ⟨hB, b0, b1⟩ := write_v_delta_keeps { a with b := (a.b.write_bits 0x02 2).write_bits (i64ToU64 (wrapI64 (u64ToI64 (i64ToU64 (wrapI64 (t - a.t))) - u64ToI64 a.t_delta))) 14 } v hA
        exact ⟨hB, b0.trans a0, b1.trans a1⟩
      · obtain ⟨hA, a0, a1⟩ := write_bits2_keeps a.b 0x06 3 (i64ToU64 (wrapI64 (u64ToI64 (i64ToU64 (wrapI64 (t - a.t))) - u64ToI64 a.t_delta))) 17 h
        obtain ⟨hB, b0, b1⟩ := write_v_delta_keeps { a with b := (a.b.write_bits 0x06 3).write_bits (i64ToU64 (wrapI64 (u64ToI64 (i64ToU64 (wrapI64 (t - a.t))) - u64ToI64 a.t_delta))) 17 } v hA
        exact ⟨hB, b0.trans a0, b1.trans a1⟩
      · obtain ⟨hA, a0, a1⟩ := write_bits2_keeps a.b 0x06 4 (i64ToU64 (wrapI64 (u64ToI64 (i64ToU64 (wrapI64 (t - a.t))) - u64ToI64 a.t_delta))) 20 h
        obtain ⟨hB, b0, b1⟩ := write_v_delta_keeps { a with b := (a.b.write_bits 0x06 4).write_bits (i64ToU64 (wrapI64 (u64ToI64 (i64ToU64 (wrapI64 (t - a.t))) - u64ToI64 a.t_delta))) 20 } v hA
        exact ⟨hB, b0.trans a0, b1.trans a1⟩
      · obtain ⟨hA, a0, a1⟩ := write_bits2_keeps a.b 0x0f 4 (i64ToU64 (wrapI64 (u64ToI64 (i64ToU64 (wrapI64 (t - a.t))) - u64ToI64 a.t_delta))) 64 h
        obtain ⟨hB, b0, b1⟩ := write_v_delta_keeps { a with b := (a.b.write_bits 0x0f 4).write_bits (i64ToU64 (wrapI64 (u64ToI64 (i64ToU64 (wrapI64 (t - a.t))) - u64ToI64 a.t_delta))) 64 } v hA
        exact ⟨hB, b0.trans a0, b1.trans a1⟩

theorem append_header (a : XORAppender) (t : Int) (v : Nat) (h : HInv a.b) :
    HInv (a.append t v).b ∧
    (a.append t v).b.data.getD 0 0 = ((headerU16 a.b.data + 1) % 65536) >>> 8 ∧
    (a.append t v).b.data.getD 1 0 = ((headerU16 a.b.data + 1) % 65536) % 256 := by
  obtain ⟨hA, a0, a1⟩ := appendBody_keeps a t v (headerU16 a.b.data) h
  rcases hsplit : a.appendBody t v (headerU16 a.b.data) with ⟨a2, td⟩
  rw [hsplit] at hA a0 a1
  have e : a.append t v =
      { a2 with
        t := t, v := v, t_delta := td,
        b := { a2.b with data := (a2.b.data.set 0 (((headerU16 a.b.data + 1) % 65536) >>> 8)).set 1 (((headerU16 a.b.data + 1) % 65536) % 256) } } := by
    simp only [XORAppender.append, hsplit]
  have hlen : 2 ≤ a2.b.data.length := hA.1
  rw [e]
  refine ⟨⟨?_, fun hc => ?_⟩, ?_, ?_⟩
  · dsimp only
    simp only [List.length_set]
    exact hA.1
  · dsimp only
    simp only [List.length_set]
    exact hA.2 (by simpa using hc)
  · dsimp only
    rw [List.getD_eq_getElem?_getD, List.getElem?_set_ne (by omega),
      List.getElem?_set_self (by omega)]
    rfl
  · dsimp only
    rw [List.getD_eq_getElem?_getD,
      List.getElem?_set_self (by simp only [List.length_set]; omega)]
    rfl

theorem appendList_header (samples : List (Int × Nat)) :
    ∀ (a : XORAppender) (k : Nat), HInv a.b →
    a.b.data.getD 0 0 = k / 256 → a.b.data.getD 1 0 = k % 256 →
    k + samples.length ≤ 65535 →
    HInv (appendList a samples).b ∧
    (appendList a samples).b.data.getD 0 0 = (k + samples.length) / 256 ∧
    (appendList a samples).b.data.getD 1 0 = (k + samples.length) % 256 := by
  induction samples with
  | nil => intro a k h h0 h1 _; exact ⟨h, by simpa using h0, by simpa using h1⟩
  | cons s ss ih =>
    intro a k h h0 h1 hle
    obtain ⟨hA, e0, e1⟩ := append_header a s.1 s.2 h
    have hk : headerU16 a.b.data = k := by
      unfold headerU16
      rw [h0, h1]
      omega
    have hm : (headerU16 a.b.data + 1) % 65536 = k + 1 := by
      rw [hk]
      have : k + (s :: ss).length ≤ 65535 := hle
      simp only [List.length_cons] at this
      omega
    have e0a : (a.append s.1 s.2).b.data.getD 0 0 = (k + 1) / 256 := by
      rw [e0, hm, Nat.shiftRight_eq_div_pow]
    have e1a : (a.append s.1 s.2).b.data.getD 1 0 = (k + 1) % 256 := by
      rw [e1, hm]
    have hle2 : (k + 1) + ss.length ≤ 65535 := by
      simp only [List.length_cons] at hle
      omega
    obtain ⟨hB, f0, f1⟩ := ih (a.append s.1 s.2) (k + 1) hA e0a e1a hle2
    have estep : appendList a (s :: ss) = appendList (a.append s.1 s.2) ss := rfl
    refine ⟨by rw [estep]; exact hB, ?_, ?_⟩
    · rw [estep, f0]
      simp only [List.length_cons]
      congr 1
      omega
    · rw [estep, f1]
      simp only [List.length_cons]
      congr 1
      omega

/-- C7.  After appending any list of at most 65535 samples to a fresh chunk,
the first two buffer bytes are the sample count big-endian, and
`num_samples` reads that count back. -/
theorem c7_header_integrity (samples : List (Int × Nat)) (h : samples.length ≤ 65535) :
    (encodeChunk samples).data.getD 0 0 = samples.length / 256 ∧
    (encodeChunk samples).data.getD 1 0 = samples.length % 256 ∧
    XORChunk.num_samples (encodeChunk samples) = samples.length := by
  obtain ⟨hA, e0, e1⟩ := appendList_header samples freshAppender 0
    (by constructor <;> simp [freshAppender, XORChunk.new]) rfl rfl (by omega)
  have l0 : (encodeChunk samples).data.getD 0 0 = samples.length / 256 := by
    rw [show encodeChunk samples = (appendList freshAppender samples).b from rfl, e0]
    simp
  have l1 : (encodeChunk samples).data.getD 1 0 = samples.length % 256 := by
    rw [show encodeChunk samples = (appendList freshAppender samples).b from rfl, e1]
    simp
  refine ⟨l0, l1, ?_⟩
  unfold XORChunk.num_samples headerU16
  rw [l0, l1]
  omega

/-- C7 witness at the three-sample list `samplesC7`. -/
theorem c7_header_integrity_witness :
    (encodeChunk samplesC7).data.getD 0 0 = samplesC7.length / 256 ∧
    (encodeChunk samplesC7).data.getD 1 0 = samplesC7.length % 256 ∧
    XORChunk.num_samples (encodeChunk samplesC7) = samplesC7.length :=
  c7_header_integrity samplesC7 (by decide)

/-- C3.  There is no overflow check: `append` on a chunk whose header reads
65535 (`0xFF 0xFF`) cannot fail — the trait method has no error channel and
`Error::AppendOverflow` is never constructed — and instead appends anyway,
wrapping the `u16` header `n + 1` to 0 (a debug build panics on the
increment), so the buffer both changes and lies about its sample count. -/
theorem c3_overflow_code_bug (a : XORAppender) (t : Int) (v : Nat)
    (h : HInv a.b) (hn0 : a.b.data.getD 0 0 = 255) (hn1 : a.b.data.getD 1 0 = 255) :
    (a.append t v).b.data.getD 0 0 = 0 ∧ (a.append t v).b.data.getD 1 0 = 0 ∧
    (a.append t v).b.data ≠ a.b.data := by
  obtain ⟨hA, e0, e1⟩ := append_header a t v h
  have hk : headerU16 a.b.data = 65535 := by
    unfold headerU16
    rw [hn0, hn1]
  rw [hk] at e0 e1
  have e0a : (a.append t v).b.data.getD 0 0 = 0 := by rw [e0]; decide
  have e1a : (a.append t v).b.data.getD 1 0 = 0 := by rw [e1]
  refine ⟨e0a, e1a, fun hEq => ?_⟩
  rw [hEq, hn0] at e0a
  exact absurd e0a (by decide)

/-- C3 witness: the two-byte buffer whose header already reads 65535. -/
theorem c3_overflow_code_bug_witness :
    (aFullC3.append 1 0).b.data.getD 0 0 = 0 ∧ (aFullC3.append 1 0).b.data.getD 1 0 = 0 ∧
    (aFullC3.append 1 0).b.data ≠ aFullC3.b.data :=
  c3_overflow_code_bug aFullC3 1 0 (by constructor <;> simp [aFullC3]) rfl rfl

/-- C9 (amended).  For the finite payload widths w = 14, 17, 20 the decoder
reads the payload unsigned and subtracts `1 << w` exactly when the value is
STRICTLY greater than `1 << (w-1)` (not `>=` as the claim says); with that
strict comparison it inverts the encoder on the whole bucket
`[-(2^(w-1) - 1), 2^(w-1)]`, and the payload `2^(w-1)` decodes to the
positive `+2^(w-1)`. -/
theorem c9_signext_inverts (sz : Nat) (dod : Int)
    (hsz : sz = 14 ∨ sz = 17 ∨ sz = 20)
    (hlo : -((2 ^ (sz - 1) : Int) - 1) ≤ dod) (hhi : dod ≤ (2 ^ (sz - 1) : Int)) :
    signExtendDod sz (i64ToU64 dod % 2 ^ sz) = dod := by
  rcases hsz with rfl | rfl | rfl <;>
    (unfold signExtendDod i64ToU64 u64ToI64
     simp only [Nat.shiftLeft_eq]
     norm_num at hlo hhi ⊢
     split_ifs <;> omega)

/-- C9 witness at the boundary payload: `dod = 2^13` in the 14-bit bucket
round-trips through the decoder's sign extension. -/
theorem c9_signext_inverts_witness :
    signExtendDod 14 (i64ToU64 8192 % 2 ^ 14) = 8192 :=
  c9_signext_inverts 14 8192 (Or.inl rfl) (by decide) (by decide)

theorem read_value_shape (it : XORIterator) (b : Bool) (it' : XORIterator)
    (h : it.read_value = .ok (b, it')) :
    b = true ∧ it'.num_read = (it.num_read + 1) % 65536 ∧ it'.num_total = it.num_total := by
  unfold XORIterator.read_value at h
  split at h
  · exact absurd h (by simp)
  · simp only [Except.ok.injEq, Prod.mk.injEq] at h
    obtain ⟨hb, hit⟩ := h
    subst hit
    exact ⟨hb.symm, rfl, rfl⟩

theorem nextDodTail_shape (it : XORIterator) (sz : Nat) (dod : Int) (br : Reader)
    (it' : XORIterator) (h : nextDodTail it sz dod br = .ok (true, it')) :
    it'.num_read = (it.num_read + 1) % 65536 ∧ it'.num_total = it.num_total := by
  unfold nextDodTail at h
  split at h
  · split at h
    · exact absurd h (by simp)
    · obtain ⟨hb, hn, ht⟩ := read_value_shape _ _ _ h
      exact ⟨hn, ht⟩
  · obtain ⟨hb, hn, ht⟩ := read_value_shape _ _ _ h
    exact ⟨hn, ht⟩

theorem next_true_shape (it it' : XORIterator) (h : it.next = .ok (true, it')) :
    it.num_read ≠ it.num_total ∧ it'.num_read = (it.num_read + 1) % 65536 ∧
    it'.num_total = it.num_total := by
  unfold XORIterator.next at h
  split at h
  case isTrue hEnd => exact absurd h (by simp)
  case isFalse hEnd =>
    split at h
    case isTrue h0 =>
      split at h
      · exact absurd h (by simp)
      · split at h
        · exact absurd h (by simp)
        · simp only [Except.ok.injEq, Prod.mk.injEq, true_and] at h
          subst h
          exact ⟨hEnd, rfl, rfl⟩
    case isFalse h0 =>
      split at h
      case isTrue h1 =>
        split at h
        · exact absurd h (by simp)
        · obtain ⟨hb, hn, ht⟩ := read_value_shape _ _ _ h
          exact ⟨hEnd, hn, ht⟩
      case isFalse h1 =>
        split at h
        · exact absurd h (by simp)
        · split at h
          · exact ⟨hEnd, (nextDodTail_shape _ _ _ _ _ h).1, (nextDodTail_shape _ _ _ _ _ h).2⟩
          · split at h
            · exact ⟨hEnd, (nextDodTail_shape _ _ _ _ _ h).1, (nextDodTail_shape _ _ _ _ _ h).2⟩
            · split at h
              · exact ⟨hEnd, (nextDodTail_shape _ _ _ _ _ h).1, (nextDodTail_shape _ _ _ _ _ h).2⟩
              · split at h
                · split at h
                  · exact absurd h (by simp)
                  · exact ⟨hEnd, (nextDodTail_shape _ _ _ _ _ h).1, (nextDodTail_shape _ _ _ _ _ h).2⟩
                · exact ⟨hEnd, (nextDodTail_shape _ _ _ _ _ h).1, (nextDodTail_shape _ _ _ _ _ h).2⟩

theorem seek_exit (fuel : Nat) (it : XORIterator) (t : Int)
    (hc : ¬(t > it.t ∨ it.num_read = 0)) :
    XORIterator.seek (fuel + 1) it t = some (.ok (true, it)) := by
  simp only [XORIterator.seek, if_neg hc]

theorem nextN_shape (k : Nat) : ∀ (it it' : XORIterator),
    nextN k it = some it' → it.num_read ≤ it.num_total → it.num_total ≤ 65535 →
    it'.num_read = it.num_read + k ∧ it'.num_total = it.num_total := by
  induction k with
  | zero =>
    intro it it' h _ _
    cases h
    exact ⟨rfl, rfl⟩
  | succ n ih =>
    intro it it' h hle hnt
    unfold nextN at h
    split at h
    case _ itm heq =>
      obtain ⟨hne, hnr, hto⟩ := next_true_shape it itm heq
      have hlt : it.num_read < it.num_total := lt_of_le_of_ne hle hne
      have hstep : itm.num_read = it.num_read + 1 := by
        rw [hnr]
        omega
      obtain ⟨h1, h2⟩ := ih itm it' h (by rw [hstep, hto]; omega) (by rw [hto]; exact hnt)
      refine ⟨?_, by rw [h2, hto]⟩
      rw [h1, hstep]
      omega
    case _ => exact absurd h (by simp)

theorem seek_run (k : Nat) : ∀ (it itk : XORIterator) (target : Int),
    nextN k it = some itk →
    (∀ i iti, i < k → nextN i it = some iti → (target > iti.t ∨ iti.num_read = 0)) →
    ¬target > itk.t → itk.num_read ≠ 0 →
    XORIterator.seek (k + 1) it target = some (.ok (true, itk)) := by
  induction k with
  | zero =>
    intro it itk target h _ hge hnr
    cases h
    exact seek_exit 0 it target (not_or.mpr ⟨hge, hnr⟩)
  | succ n ih =>
    intro it itk target h hcond hge hnr
    have hc0 := hcond 0 it (Nat.succ_pos n) rfl
    unfold nextN at h
    split at h
    case _ itm heq =>
      rw [seek_step (n + 1) it target hc0, heq]
      exact ih itm itk target h
        (fun i iti hi hni => hcond (i + 1) iti (by omega) (by
          show nextN (i + 1) it = some iti
          unfold nextN
          rw [heq]
          exact hni)) hge hnr
    case _ => exact absurd h (by simp)

/-- C6.  Seek monotonicity: if a fresh iterator reaches, after `k >= 1`
successful `next` calls, the first decoded sample whose timestamp is at
least the target (every earlier sample being strictly below it), then
`seek(target)` returns `true` with the cursor on exactly that sample, having
consumed exactly those `k` samples (`num_read = k`). -/
theorem c6_seek_monotonic (it0 itk : XORIterator) (k : Nat) (target : Int)
    (hfresh : it0.num_read = 0) (hnt : it0.num_total ≤ 65535) (hk : 1 ≤ k)
    (hrun : nextN k it0 = some itk)
    (hbefore : ∀ i iti, 1 ≤ i → i < k → nextN i it0 = some iti → target > iti.t)
    (hfound : target ≤ itk.t) :
    XORIterator.seek (k + 1) it0 target = some (.ok (true, itk)) ∧
    target ≤ itk.t ∧ itk.num_read = k := by
  obtain ⟨hn, _⟩ := nextN_shape k it0 itk hrun (by omega) hnt
  have hnum : itk.num_read = k := by
    rw [hn, hfresh]
    omega
  refine ⟨seek_run k it0 itk target hrun ?_ (by omega) (by omega), hfound, hnum⟩
  intro i iti hi hni
  rcases Nat.eq_zero_or_pos i with h0 | hpos
  · subst h0
    cases hni
    exact Or.inr hfresh
  · exact Or.inl (hbefore i iti hpos hi hni)

/-- C6 witness: on the chunk `[(1, 1.0), (2, 1.0)]` with target 2, seek
stops on the second sample with two samples consumed. -/
theorem c6_seek_monotonic_witness :
    XORIterator.seek 3 (XORChunk.iterator chunkC6) 2 = some (.ok (true, itC6done)) ∧
    (2 : Int) ≤ itC6done.t ∧ itC6done.num_read = 2 :=
  c6_seek_monotonic (XORChunk.iterator chunkC6) itC6done 2 2 rfl (by decide) (by decide)
    rfl
    (fun i iti h1 h2 hni => by
      have hi1 : i = 1 := by omega
      subst hi1
      rw [show nextN 1 (XORChunk.iterator chunkC6) = some itC6mid from rfl] at hni
      cases hni
      decide)
    (by decide)

end Chunkenc
